import Mathlib

/-!
Verification of the MDP planner (`planner.py`) and decoder (`decoder.py`) of the
gridworld planning pipeline.  The planner is embedded shallowly: states are
`Fin S`, actions are natural numbers, probabilities and rewards are rationals
(the Python code uses floats; the claims under study are about exact structure,
branch selection and exact example values, so exact arithmetic is the faithful
idealization).  `np.linalg.solve` and the PuLP LP backend are external
libraries: the linear solve is modelled by the mathematical contract of a dense
direct solve (Cramer's rule over ℚ, `none` exactly on a singular matrix, which
is when `np.linalg.solve` raises `LinAlgError`), and the LP backend's output is
passed in as an explicit vector, with feasibility/optimality of that vector
stated as hypotheses where a claim needs them.
-/

namespace Planner

/-- A transition triple `(p, s_next, r)` as stored by `parse_mdp`:
`transitions[(s1,a)].append((p, s2, r))`. -/
abbrev Triple (S : ℕ) := ℚ × Fin S × ℚ

/-- The transition table: `transitions.get((s, a), [])`.  A `(s, a)` key is
present in the Python dict iff the list is nonempty (entries are only created
by appending a triple). -/
abbrev Trans (S : ℕ) := Fin S → ℕ → List (Triple S)

/-- The Bellman action value `sum(p * (r + gamma * V[s_next]) for p, s_next, r
in transitions[(s, a)])`, the expression shared by the improvement step of
`Howard_policy_iteration_exact` (line 66), the LP constraints (lines 86-87) and
the LP greedy recovery (lines 98-99) of `planner.py`. -/
def qval {S : ℕ} (trans : Trans S) (gamma : ℚ) (V : Fin S → ℚ) (s : Fin S) (a : ℕ) : ℚ :=
  ((trans s a).map (fun t => t.1 * (t.2.2 + gamma * V t.2.1))).sum

/-- Row `s` of the identity matrix `np.eye(S)`. -/
def eyeRow {S : ℕ} (s : Fin S) : Fin S → ℚ :=
  fun j => if s = j then 1 else 0

/-- The in-place update loop `for p, s_next, r in transitions.get((s, policy[s]), []):
A_mat[s, s_next] -= p` of `policy_evaluation_exact`, acting on row `s`. -/
def subtractProbs {S : ℕ} (row : Fin S → ℚ) : List (Triple S) → Fin S → ℚ :=
  fun ts => ts.foldl (fun r t => Function.update r t.2.1 (r t.2.1 - t.1)) row

/-- The coefficient matrix built by `policy_evaluation_exact` (`planner.py`
lines 38-47): start from `np.eye(S)`; terminal rows are left untouched;
for a non-terminal row `s` subtract each transition probability of
`(s, policy[s])` from column `s_next`.  Note: the Python function takes no
`gamma` argument and never multiplies the probabilities by a discount. -/
def evalMatrix {S : ℕ} (trans : Trans S) (terminal : Finset (Fin S))
    (policy : Fin S → ℕ) : Matrix (Fin S) (Fin S) ℚ :=
  Matrix.of fun s =>
    if s ∈ terminal then eyeRow s
    else subtractProbs (eyeRow s) (trans s (policy s))

/-- The right-hand side built by `policy_evaluation_exact`: `b[s] = 0` for a
terminal state, `b[s] = -1` otherwise ("Each action incurs a cost of -1"). -/
def evalVec {S : ℕ} (terminal : Finset (Fin S)) : Fin S → ℚ :=
  fun s => if s ∈ terminal then 0 else -1

/-- Cramer's-rule solution vector: component `i` is the determinant of the
matrix with column `i` replaced by `b` (this is `Matrix.cramer` unbundled into
an executable function). -/
def cramerVec {n : ℕ} (A : Matrix (Fin n) (Fin n) ℚ) (b : Fin n → ℚ) : Fin n → ℚ :=
  fun i => (A.updateColumn i b).det

/-- Contract of `np.linalg.solve` for a square system: the unique solution when
the matrix is invertible, a signalled failure (`LinAlgError`, here `none`) when
it is singular. -/
def linSolve {n : ℕ} (A : Matrix (Fin n) (Fin n) ℚ) (b : Fin n → ℚ) : Option (Fin n → ℚ) :=
  if A.det = 0 then none else some (fun i => cramerVec A b i / A.det)

/-- `policy_evaluation_exact(S, transitions, terminal_states, policy)`
(`planner.py` lines 37-49).  `none` models the raised `LinAlgError`.  The
source function receives no discount factor and ignores the rewards stored in
the transition triples. -/
def policy_evaluation_exact {S : ℕ} (trans : Trans S) (terminal : Finset (Fin S))
    (policy : Fin S → ℕ) : Option (Fin S → ℚ) :=
  linSolve (evalMatrix trans terminal policy) (evalVec terminal)

/-- One step of the greedy scan `for a in range(A): if (s, a) in transitions:
value = ...; if value > best_value: best_a, best_value = a, value`.  The
accumulator is `none` while `best_a` is still `None` (then `best_value` is
`-inf`, so the first recorded action always wins the comparison). -/
def greedyStep {S : ℕ} (trans : Trans S) (gamma : ℚ) (V : Fin S → ℚ) (s : Fin S)
    (acc : Option (ℕ × ℚ)) (a : ℕ) : Option (ℕ × ℚ) :=
  if trans s a = [] then acc
  else
    match acc with
    | none => some (a, qval trans gamma V s a)
    | some (b, bv) => if bv < qval trans gamma V s a then some (a, qval trans gamma V s a)
                      else some (b, bv)

/-- The greedy action scan over `range(A)` shared verbatim by the improvement
step of `Howard_policy_iteration_exact` (`planner.py` lines 63-68) and the LP
policy recovery (lines 95-101): first action with strictly greater value wins. -/
def greedyAction {S : ℕ} (A : ℕ) (trans : Trans S) (gamma : ℚ) (V : Fin S → ℚ)
    (s : Fin S) : Option ℕ :=
  ((List.range A).foldl (greedyStep trans gamma V s) none).map Prod.fst

/-- The improvement pass of `Howard_policy_iteration_exact` (lines 59-71):
terminal states are skipped; a non-terminal state keeps its action when no
action has recorded transitions (`best_a is None`), otherwise takes the greedy
action.  (`policy[s]` is only overwritten when the greedy action differs, which
yields the same resulting policy.) -/
def improve {S : ℕ} (A : ℕ) (trans : Trans S) (terminal : Finset (Fin S)) (gamma : ℚ)
    (V : Fin S → ℚ) (policy : Fin S → ℕ) : Fin S → ℕ :=
  fun s => if s ∈ terminal then policy s
           else (greedyAction A trans gamma V s).getD (policy s)

/-- `linear_programming(S, A, transitions, terminal_states, gamma)`
(`planner.py` lines 76-103).  The PuLP/CBC backend is external: `lpV` is the
vector of variable values the backend reports for this problem (with the
code's `None ↦ 0` replacement already applied).  The function returns those
values unchanged together with the greedy policy recovered from them; a
terminal state and a state with no recorded action both get action 0. -/
def linear_programming {S : ℕ} (A : ℕ) (trans : Trans S) (terminal : Finset (Fin S))
    (gamma : ℚ) (lpV : Fin S → ℚ) : (Fin S → ℚ) × (Fin S → ℕ) :=
  (lpV, fun s => if s ∈ terminal then 0 else (greedyAction A trans gamma lpV s).getD 0)

/-- Feasibility for the LP built by `linear_programming` (lines 80-87):
`V_s = 0` for every terminal state, and `V_s ≥ Σ p·(r + γ·V_s')` for every
non-terminal state `s` and action `a < A` with recorded transitions. -/
def lpFeasible {S : ℕ} (A : ℕ) (trans : Trans S) (terminal : Finset (Fin S))
    (gamma : ℚ) (W : Fin S → ℚ) : Prop :=
  (∀ s ∈ terminal, W s = 0) ∧
  (∀ s, s ∉ terminal → ∀ a < A, trans s a ≠ [] → qval trans gamma W s a ≤ W s)

/-- Optimality for the LP built by `linear_programming`: feasible, and the
objective `Σ_s V_s` (line 79, `LpMinimize`) is minimal among feasible points. -/
def lpOptimal {S : ℕ} (A : ℕ) (trans : Trans S) (terminal : Finset (Fin S))
    (gamma : ℚ) (W : Fin S → ℚ) : Prop :=
  lpFeasible A trans terminal gamma W ∧
  ∀ U, lpFeasible A trans terminal gamma U → (∑ s, W s) ≤ ∑ s, U s

/-- `Howard_policy_iteration_exact(S, A, transitions, terminal_states, gamma)`
(`planner.py` lines 51-74), with explicit fuel for the `while True` loop
(`none` = fuel exhausted; the source loop has no iteration cap).  On a
`LinAlgError` from the exact evaluator the whole solve is delegated to
`linear_programming` and its result returned as-is; otherwise the improvement
pass runs and the loop stops exactly when it changes no state's action. -/
def Howard_policy_iteration_exact {S : ℕ} (A : ℕ) (trans : Trans S)
    (terminal : Finset (Fin S)) (gamma : ℚ) (lpV : Fin S → ℚ) :
    ℕ → (Fin S → ℕ) → Option ((Fin S → ℚ) × (Fin S → ℕ))
  | 0, _ => none
  | fuel + 1, policy =>
    match policy_evaluation_exact trans terminal policy with
    | none => some (linear_programming A trans terminal gamma lpV)
    | some V =>
      let policy' := improve A trans terminal gamma V policy
      if policy' = policy then some (V, policy)
      else Howard_policy_iteration_exact A trans terminal gamma lpV fuel policy'

/-- One sweep of `policy_evaluation` (`planner.py` lines 108-115): `V_new`
starts at `np.zeros(S)`, terminal states are skipped, and a non-terminal state
gets `Σ p·(r + γ·V[s'])` over the transitions of `(s, policy[s])` (a missing
`(s, policy[s])` key leaves the zero, which equals the empty sum). -/
def iterStep {S : ℕ} (trans : Trans S) (terminal : Finset (Fin S)) (gamma : ℚ)
    (policy : Fin S → ℕ) (V : Fin S → ℚ) : Fin S → ℚ :=
  fun s => if s ∈ terminal then 0 else qval trans gamma V s (policy s)

/-- `np.max(np.abs(V_new - V))`, the sup-norm of the update.  (For `S = 0`
numpy would reject the empty max; the empty fold is 0 here, and every claim
about this evaluator concerns `S > 0`.) -/
def supDist {S : ℕ} (f g : Fin S → ℚ) : ℚ :=
  ((List.finRange S).map (fun s => |f s - g s|)).foldr max 0

/-- The convergence tolerance `1e-8` of `policy_evaluation`. -/
def iterTol : ℚ := 1 / 100000000

/-- The `while True` loop of `policy_evaluation` (lines 107-118), with fuel:
compute `V_new`, stop and return the previous `V` when the sup-norm of the
update is below `1e-8`, else continue from `V_new`. -/
def evalLoop {S : ℕ} (trans : Trans S) (terminal : Finset (Fin S)) (gamma : ℚ)
    (policy : Fin S → ℕ) : ℕ → (Fin S → ℚ) → Option (Fin S → ℚ)
  | 0, _ => none
  | fuel + 1, V =>
    let Vnew := iterStep trans terminal gamma policy V
    if supDist Vnew V < iterTol then some V
    else evalLoop trans terminal gamma policy fuel Vnew

/-- `policy_evaluation(S, A, transitions, terminal_states, gamma, policy)`
(`planner.py` lines 105-119): the fixed-point loop started from `np.zeros(S)`. -/
def policy_evaluation {S : ℕ} (trans : Trans S) (terminal : Finset (Fin S))
    (gamma : ℚ) (policy : Fin S → ℕ) (fuel : ℕ) : Option (Fin S → ℚ) :=
  evalLoop trans terminal gamma policy fuel (fun _ => 0)

/-- The mathematical iterate sequence of `policy_evaluation`'s sweep:
`Vseq 0` is the all-zero initialization `np.zeros(S)` and `Vseq (n+1)` is one
sweep applied to `Vseq n`. -/
def Vseq {S : ℕ} (trans : Trans S) (terminal : Finset (Fin S)) (gamma : ℚ)
    (policy : Fin S → ℕ) : ℕ → (Fin S → ℚ)
  | 0 => fun _ => 0
  | n + 1 => iterStep trans terminal gamma policy (Vseq trans terminal gamma policy n)

/-- Total probability mass the transitions of `(s, a)` put on next state `j`. -/
def probTo {S : ℕ} (trans : Trans S) (s : Fin S) (a : ℕ) (j : Fin S) : ℚ :=
  (((trans s a).filter (fun t => t.2.1 = j)).map (fun t => t.1)).sum

/-- The coefficient matrix described by the specification of the Exact Policy
Evaluator: the system `(I − P_π·γ) V = R_π`, each non-terminal row `s` encoding
`V[s] − γ·Σ p·V[s'] = −1` and each terminal row encoding `V[s] = 0`.  This
definition follows the spec's words, to be compared with `evalMatrix`, the
matrix the code actually builds. -/
def claimedMatrix {S : ℕ} (trans : Trans S) (terminal : Finset (Fin S)) (gamma : ℚ)
    (policy : Fin S → ℕ) : Matrix (Fin S) (Fin S) ℚ :=
  Matrix.of fun s j =>
    if s ∈ terminal then (if s = j then 1 else 0)
    else (if s = j then 1 else 0) - gamma * probTo trans s (policy s) j

/-- Example MDP: a single non-terminal state whose only action loops back to
itself with probability 1 and reward −1, with discount 1/2. -/
def ex1trans : Trans 1 := fun _ a => if a = 0 then [((1 : ℚ), (0 : Fin 1), (-1 : ℚ))] else []

/-- Terminal set of the one-state example: empty (a continuing MDP). -/
def ex1term : Finset (Fin 1) := ∅

/-- Example MDP: state 0 moves to the terminal state 1 with probability 1 and
reward −5; discount 1/2. -/
def ex2trans : Trans 2 := fun s a => if s = 0 ∧ a = 0 then [((1 : ℚ), (1 : Fin 2), (-5 : ℚ))] else []

/-- Terminal set of the two-state example: state 1. -/
def ex2term : Finset (Fin 2) := {1}

/-- One-state MDP with two actions of identical value (both self-loops with
probability 1 and reward −1): a tie for the greedy scan. -/
def ex3trans : Trans 1 :=
  fun _ a => if a = 0 ∨ a = 1 then [((1 : ℚ), (0 : Fin 1), (-1 : ℚ))] else []

/-- Terminal set making the one-state example fully terminal. -/
def ex4term : Finset (Fin 1) := {0}

/-- The three solving paths `main` can take. -/
inductive PlannerMode
  | evaluate
  | hpi
  | lp
deriving DecidableEq

/-- Python truthiness of the optional `--policy` argument in `if args.policy:`
(`planner.py` line 130): `None` (flag absent) and the empty string are falsy. -/
def policyGiven (policyArg : Option String) : Bool :=
  match policyArg with
  | none => false
  | some p => p ≠ ""

/-- The argparse handling of `--algorithm` (line 124): choices `hpi`/`lp`,
default `hpi` when the flag is absent. -/
def resolveAlgorithm (algArg : Option String) : String :=
  algArg.getD "hpi"

/-- The algorithm-selection branching of `main` (`planner.py` lines 130-145):
a supplied policy file forces the iterative evaluator; otherwise an episodic
MDP forces the LP solver; otherwise the `--algorithm` flag decides between
Howard's policy iteration and the LP solver. -/
def chooseMode (policyArg : Option String) (mdptype : Option String)
    (alg : String) : PlannerMode :=
  if policyGiven policyArg then .evaluate
  else if mdptype = some "episodic" then .lp
  else if alg = "hpi" then .hpi
  else .lp

/-- The eight decimal digit characters of `n % 10^8`, most significant first:
what `f"{x:.8f}"` prints after the decimal point. -/
def fracDigits8 (n : ℕ) : String :=
  String.mk ((List.range 8).map (fun i => Nat.digitChar (n / 10 ^ (7 - i) % 10)))

/-- Python's fixed-point rendering `f"{x:.8f}"` modelled over ℚ: round
`|x|·10^8` to an integer and print sign, integer part, `.`, and exactly eight
fractional digits.  (CPython rounds the underlying binary double half-to-even;
the claims under study concern the printed structure, not the tie-rounding.) -/
def fmt8 (q : ℚ) : String :=
  (if q < 0 then "-" else "")
    ++ toString ((round (|q| * 100000000) : ℤ).toNat / 100000000)
    ++ "." ++ fracDigits8 ((round (|q| * 100000000) : ℤ).toNat)

/-- The output loop of `main` (`planner.py` lines 134-135 and 147-148):
`for s in range(S): print(f"{V[s]:.8f}\t{policy[s]}")`, identical in
evaluation mode and solving mode. -/
def outputLines (S : ℕ) (V : ℕ → ℚ) (policy : ℕ → ℕ) : List String :=
  (List.range S).map (fun s => fmt8 (V s) ++ "\t" ++ toString (policy s))

end Planner

namespace Py

/-- Value of a nonempty all-digit character list, the numeral core accepted by
both `int()` and `float()` for the tokens this pipeline produces. -/
def digitsVal (cs : List Char) : Option ℕ :=
  if cs = [] ∨ ¬ cs.all Char.isDigit then none
  else some (cs.foldl (fun n c => n * 10 + (c.toNat - 48)) 0)

/-- Python `int(token)` on the decimal numerals this pipeline uses (optional
minus sign and digits); `none` models a raised `ValueError`. -/
def pyInt (s : String) : Option ℤ :=
  match s.toList with
  | '-' :: rest => (digitsVal rest).map (fun n => -(n : ℤ))
  | cs => (digitsVal cs).map (fun n => (n : ℤ))

/-- Nonnegative part of Python `float(token)`: digits with an optional
fractional part after one decimal point. -/
def pyFloatNonneg (cs : List Char) : Option ℚ :=
  match cs.splitOn '.' with
  | [i] => (digitsVal i).map (fun n => (n : ℚ))
  | [i, f] =>
    match digitsVal i with
    | none => none
    | some n =>
      if f = [] then some (n : ℚ)
      else (digitsVal f).map (fun m => (n : ℚ) + (m : ℚ) / 10 ^ f.length)
  | _ => none

/-- Python `float(token)` on the decimal numerals this pipeline uses; `none`
models a raised `ValueError`. -/
def pyFloat (s : String) : Option ℚ :=
  match s.toList with
  | '-' :: rest => (pyFloatNonneg rest).map Neg.neg
  | cs => pyFloatNonneg cs

/-- Python `int(x)` on a float: truncation toward zero. -/
def pyTrunc (q : ℚ) : ℤ :=
  if q < 0 then -⌊-q⌋ else ⌊q⌋

end Py

namespace Planner

/-- The in-memory model `parse_mdp` returns: `(S, A, transitions,
terminal_states, mdptype, gamma)` with the initial values of `planner.py`
lines 9-12 as defaults (`S, A = 0, 0`, empty dict, empty set, `None`,
`None`). -/
structure MDPFile where
  numStates : ℤ
  numActions : ℤ
  transitions : List ((ℤ × ℤ) × List (ℚ × ℤ × ℚ))
  terminal : List ℤ
  mdptype : Option String
  gamma : Option ℚ
deriving DecidableEq

/-- The state `parse_mdp` starts from: every field silently defaulted. -/
def initMDPFile : MDPFile :=
  ⟨0, 0, [], [], none, none⟩

/-- `transitions[(s1, a)].append((p, s2, r))`, creating the key on first use
(`planner.py` lines 27-29); the dict is modelled as an insertion-ordered
association list. -/
def addTransition (tbl : List ((ℤ × ℤ) × List (ℚ × ℤ × ℚ))) (key : ℤ × ℤ)
    (t : ℚ × ℤ × ℚ) : List ((ℤ × ℤ) × List (ℚ × ℤ × ℚ)) :=
  match tbl with
  | [] => [(key, [t])]
  | (k, ts) :: rest =>
    if k = key then (k, ts ++ [t]) :: rest
    else (k, ts) :: addTransition rest key t

/-- Dispatch on one whitespace-tokenized line of the MDP file (`planner.py`
lines 14-33): blank lines and unknown keywords are skipped, recognized
keywords overwrite (or, for `transition`, append to) the current state, and
`none` models a raised exception (missing argument or failed conversion). -/
def parseLine (st : MDPFile) (parts : List String) : Option MDPFile :=
  match parts with
  | [] => some st
  | kw :: args =>
    if kw = "numStates" then
      match args with
      | v :: _ => (Py.pyInt v).map (fun n => { st with numStates := n })
      | [] => none
    else if kw = "numActions" then
      match args with
      | v :: _ => (Py.pyInt v).map (fun n => { st with numActions := n })
      | [] => none
    else if kw = "end" then
      (args.mapM Py.pyInt).map (fun ts => { st with terminal := ts })
    else if kw = "transition" then
      match args.mapM Py.pyFloat with
      | some [s1, a, s2, r, p] =>
        some { st with transitions :=
          addTransition st.transitions (Py.pyTrunc s1, Py.pyTrunc a) (p, Py.pyTrunc s2, r) }
      | _ => none
    else if kw = "mdptype" then
      match args with
      | v :: _ => some { st with mdptype := some v }
      | [] => none
    else if kw = "discount" then
      match args with
      | v :: _ => (Py.pyFloat v).map (fun g => { st with gamma := some g })
      | [] => none
    else some st

/-- `parse_mdp` (`planner.py` lines 5-35) over the tokenized lines of the
file: fold the line dispatch over the initial, all-defaulted state.  The
function performs no completeness check whatsoever before returning. -/
def parse_mdp (lines : List (List String)) : Option MDPFile :=
  lines.foldl (fun acc parts => acc.bind (fun st => parseLine st parts)) (some initMDPFile)

end Planner

namespace Decoder

/-- A grid row as its whitespace token list (Python `row.split()`). -/
abbrev Row := List String

/-- A test-case grid: a list of tokenized rows. -/
abbrev Grid := List Row

/-- Orientation encoding of the agent arrow symbols in `find_agent`
(`decoder.py` lines 56-64): 0 up, 1 right, 2 down, 3 left. -/
def arrowOrient (t : String) : Option ℕ :=
  if t = "^" then some 0
  else if t = ">" then some 1
  else if t = "v" then some 2
  else if t = "<" then some 3
  else none

/-- The fallback scan symbol of `find_agent`: `'s'` with default
orientation 0 (lines 66-71). -/
def startOrient (t : String) : Option ℕ :=
  if t = "s" then some 0 else none

/-- Scan one row for the first token recognized by `p`, returning its column
index (counting from `j`) and the encoded orientation. -/
def findTokenRow (p : String → Option ℕ) : Row → ℕ → Option (ℕ × ℕ)
  | [], _ => none
  | t :: ts, j =>
    match p t with
    | some o => some (j, o)
    | none => findTokenRow p ts (j + 1)

/-- Scan the grid rows in order for the first token recognized by `p`. -/
def findTokenGrid (p : String → Option ℕ) : Grid → ℕ → Option (ℕ × ℕ × ℕ)
  | [], _ => none
  | row :: rest, i =>
    match findTokenRow p row 0 with
    | some (j, o) => some (i, j, o)
    | none => findTokenGrid p rest (i + 1)

/-- `find_agent` (`decoder.py` lines 46-72): the first arrow symbol in
row-major order; failing that, the first `'s'`; failing that, `None`. -/
def find_agent (grid : Grid) : Option (ℕ × ℕ × ℕ) :=
  match findTokenGrid arrowOrient grid 0 with
  | some r => some r
  | none => findTokenGrid startOrient grid 0

/-- The non-wall cells of one row in column order (columns counted from `j`). -/
def freeCellsRow (i : ℕ) : Row → ℕ → List (ℕ × ℕ)
  | [], _ => []
  | t :: ts, j =>
    if t = "W" then freeCellsRow i ts (j + 1)
    else (i, j) :: freeCellsRow i ts (j + 1)

/-- The row-major list of non-wall cells; a cell's position in this list is
the counter value `build_free_cells_from_test` assigns it (lines 30-44). -/
def freeCellsGrid : Grid → ℕ → List (ℕ × ℕ)
  | [], _ => []
  | row :: rest, i => freeCellsRow i row 0 ++ freeCellsGrid rest (i + 1)

/-- First-occurrence index with a running counter. -/
def idxFrom (x : ℕ × ℕ) : List (ℕ × ℕ) → ℕ → Option ℕ
  | [], _ => none
  | y :: ys, k => if y = x then some k else idxFrom x ys (k + 1)

/-- The dict lookup `free_cells[(i, j)]` (line 118); `none` models a
`KeyError`. -/
def freeCellIndex (grid : Grid) (i j : ℕ) : Option ℕ :=
  idxFrom (i, j) (freeCellsGrid grid 0) 0

/-- `has_key_in_grid` (`decoder.py` lines 74-85). -/
def has_key_in_grid (grid : Grid) : Bool :=
  grid.any (fun row => row.any (fun t => t = "k"))

/-- The value-policy file parse of the decoder's `main` (lines 95-101): keep
`int(parts[1])` of every line with at least two whitespace tokens; `none`
models `int()` raising on a malformed token. -/
def parseVP : List (List String) → Option (List ℤ)
  | [] => some []
  | parts :: rest =>
    if h : 2 ≤ parts.length then
      match Py.pyInt (parts.get ⟨1, h⟩) with
      | none => none
      | some v => (parseVP rest).map (fun l => v :: l)
    else parseVP rest

/-- The per-test-case body of the decoder's `main` (lines 106-124): locate the
agent (no agent: emit `"0"`), reconstruct the state id
`((cell_index * 4) + orient) * 2 + key_flag`, and look the action up in the
policy column, emitting `0` when the state id is out of range.  `none` models
an uncaught exception. -/
def decodeCase (policyList : List ℤ) (grid : Grid) : Option String :=
  match find_agent grid with
  | none => some "0"
  | some (i, j, orient) =>
    match freeCellIndex grid i j with
    | none => none
    | some ci =>
      let keyFlag : ℕ := if has_key_in_grid grid then 0 else 1
      let state := ((ci * 4) + orient) * 2 + keyFlag
      if h : state < policyList.length then some (toString (policyList.get ⟨state, h⟩))
      else some (toString (0 : ℤ))

end Decoder

namespace Planner

/-! ## General lemmas -/

/-- Closed form of the in-place probability-subtraction loop: the final entry
in column `j` is the starting entry minus the total probability mass the
triples put on `j`. -/
theorem subtractProbs_apply {S : ℕ} (ts : List (Triple S)) (row : Fin S → ℚ) (j : Fin S) :
    subtractProbs row ts j = row j
      - ((ts.filter (fun t => t.2.1 = j)).map (fun t => t.1)).sum := by
  induction ts generalizing row with
  | nil => simp [subtractProbs]
  | cons t rest ih =>
    by_cases hj : t.2.1 = j
    · subst hj
      simp only [subtractProbs, List.foldl_cons] at *
      rw [ih]
      simp [Function.update, sub_sub]
    · simp only [subtractProbs, List.foldl_cons] at *
      rw [ih]
      rw [List.filter_cons_of_neg (by simpa using hj)]
      simp only [Function.update, eq_rec_constant, dite_eq_ite]
      rw [if_neg (fun h => hj h.symm)]

/-- `linSolve` really solves: a returned vector satisfies `A *ᵥ V = b`. -/
theorem linSolve_spec {n : ℕ} (A : Matrix (Fin n) (Fin n) ℚ) (b : Fin n → ℚ)
    (V : Fin n → ℚ) (h : linSolve A b = some V) : A.mulVec V = b := by
  rw [linSolve] at h
  split at h
  · exact absurd h (by simp)
  · next hdet =>
    have hV : V = A.det⁻¹ • Matrix.cramer A b := by
      have := Option.some_injective _ h
      funext i
      rw [← this]
      simp [cramerVec, Matrix.cramer_apply, div_eq_inv_mul, Pi.smul_apply, smul_eq_mul]
    rw [hV, Matrix.mulVec_smul, Matrix.mulVec_cramer, smul_smul, inv_mul_cancel₀ hdet,
      one_smul]

/-- Dot product against a row of the identity extracts the matching entry. -/
theorem eyeRow_dotProduct {S : ℕ} (s : Fin S) (V : Fin S → ℚ) :
    Matrix.dotProduct (eyeRow s) V = V s := by
  simp [Matrix.dotProduct, eyeRow, ite_mul]

/-- Any vector accepted by the `while` loop of `policy_evaluation` keeps a zero
at every state where the sweep writes zeros, in particular terminal states. -/
theorem evalLoop_terminal_zero {S : ℕ} (trans : Trans S) (terminal : Finset (Fin S))
    (gamma : ℚ) (policy : Fin S → ℕ) :
    ∀ fuel V0 V, (∀ s ∈ terminal, V0 s = 0) →
      evalLoop trans terminal gamma policy fuel V0 = some V → ∀ s ∈ terminal, V s = 0 := by
  intro fuel
  induction fuel with
  | zero => intro V0 V _ h; exact absurd h (by simp [evalLoop])
  | succ n ih =>
    intro V0 V h0 h s hs
    rw [evalLoop] at h
    split at h
    · rw [← Option.some_injective _ h]; exact h0 s hs
    · exact ih _ _ (fun t ht => by simp [iterStep, ht]) h s hs

/-- Invariant of the greedy scan `for a in range(A)`: folding `greedyStep`
over a strictly sorted action list starting from an accumulator whose entry
(if any) stores its own value, has recorded transitions, and precedes every
listed action, yields the first-seen maximizer: every valid scanned action has
value at most the result's, with equality only for actions not before it. -/
theorem greedy_fold_spec {S : ℕ} (trans : Trans S) (gamma : ℚ) (V : Fin S → ℚ) (s : Fin S)
    (l : List ℕ) :
    ∀ acc : Option (ℕ × ℚ),
      (∀ b bv, acc = some (b, bv) →
         bv = qval trans gamma V s b ∧ trans s b ≠ [] ∧ ∀ c ∈ l, b < c) →
      l.Sorted (· < ·) →
      ∀ a av, l.foldl (greedyStep trans gamma V s) acc = some (a, av) →
        av = qval trans gamma V s a ∧ trans s a ≠ [] ∧
        (∀ c ∈ l, trans s c ≠ [] →
           qval trans gamma V s c ≤ av ∧ (qval trans gamma V s c = av → a ≤ c)) ∧
        (∀ b bv, acc = some (b, bv) →
           qval trans gamma V s b ≤ av ∧ (qval trans gamma V s b = av → a ≤ b)) ∧
        (a ∈ l ∨ acc = some (a, av)) := by
  induction l with
  | nil =>
    intro acc hacc _ a av hfold
    simp only [List.foldl_nil] at hfold
    obtain ⟨hq, hv, _⟩ := hacc a av hfold
    refine ⟨hq, hv, by simp, fun b bv hb => ?_, Or.inr hfold⟩
    rw [hfold] at hb
    obtain ⟨h1, h2⟩ := Prod.mk.injEq .. ▸ (Option.some_injective _ hb)
    exact ⟨le_of_eq (by rw [← h1, ← hq, h2]), fun _ => le_of_eq h1⟩
  | cons a0 l' ih =>
    intro acc hacc hsort a av hfold
    rw [List.sorted_cons] at hsort
    obtain ⟨ha0l, hsort'⟩ := hsort
    simp only [List.foldl_cons] at hfold
    by_cases hv0 : trans s a0 = []
    · have hstep : greedyStep trans gamma V s acc a0 = acc := by
        simp [greedyStep, hv0]
      rw [hstep] at hfold
      have hacc' : ∀ b bv, acc = some (b, bv) →
          bv = qval trans gamma V s b ∧ trans s b ≠ [] ∧ ∀ c ∈ l', b < c :=
        fun b bv hb => ⟨(hacc b bv hb).1, (hacc b bv hb).2.1,
          fun c hc => (hacc b bv hb).2.2 c (List.mem_cons_of_mem _ hc)⟩
      obtain ⟨hq, hvv, hl', haccle, hmem⟩ := ih acc hacc' hsort' a av hfold
      refine ⟨hq, hvv, ?_, haccle, ?_⟩
      · intro c hc hcv
        rcases List.mem_cons.mp hc with rfl | hc'
        · exact absurd hcv (by simp [hv0])
        · exact hl' c hc' hcv
      · rcases hmem with h | h
        · exact Or.inl (List.mem_cons_of_mem _ h)
        · exact Or.inr h
    · -- a0 has recorded transitions: the accumulator is updated (or kept)
      cases hacceq : acc with
      | none =>
        have hstep : greedyStep trans gamma V s acc a0
            = some (a0, qval trans gamma V s a0) := by
          simp [greedyStep, hv0, hacceq]
        rw [hstep] at hfold
        have hacc' : ∀ b bv, (some (a0, qval trans gamma V s a0) : Option (ℕ × ℚ)) = some (b, bv) →
            bv = qval trans gamma V s b ∧ trans s b ≠ [] ∧ ∀ c ∈ l', b < c := by
          intro b bv hb
          obtain ⟨h1, h2⟩ := Prod.mk.injEq .. ▸ (Option.some_injective _ hb)
          exact ⟨by rw [← h1, ← h2], h1 ▸ hv0, h1 ▸ ha0l⟩
        obtain ⟨hq, hvv, hl', haccle, hmem⟩ := ih _ hacc' hsort' a av hfold
        refine ⟨hq, hvv, ?_, by simp [hacceq], ?_⟩
        · intro c hc hcv
          rcases List.mem_cons.mp hc with rfl | hc'
          · exact haccle c (qval trans gamma V s c) rfl
          · exact hl' c hc' hcv
        · rcases hmem with h | h
          · exact Or.inl (List.mem_cons_of_mem _ h)
          · obtain ⟨h1, _⟩ := Prod.mk.injEq .. ▸ (Option.some_injective _ h)
            exact Or.inl (h1 ▸ List.mem_cons_self a0 l')
      | some p =>
        obtain ⟨b, bv⟩ := p
        obtain ⟨hbq, hbv, hbl⟩ := hacc b bv hacceq
        by_cases hlt : bv < qval trans gamma V s a0
        · have hstep : greedyStep trans gamma V s acc a0
              = some (a0, qval trans gamma V s a0) := by
            simp [greedyStep, hv0, hacceq, hlt]
          rw [hstep] at hfold
          have hacc' : ∀ c cv, (some (a0, qval trans gamma V s a0) : Option (ℕ × ℚ)) = some (c, cv) →
              cv = qval trans gamma V s c ∧ trans s c ≠ [] ∧ ∀ d ∈ l', c < d := by
            intro c cv hc
            obtain ⟨h1, h2⟩ := Prod.mk.injEq .. ▸ (Option.some_injective _ hc)
            exact ⟨by rw [← h1, ← h2], h1 ▸ hv0, h1 ▸ ha0l⟩
          obtain ⟨hq, hvv, hl', haccle, hmem⟩ := ih _ hacc' hsort' a av hfold
          have ha0le := haccle a0 (qval trans gamma V s a0) rfl
          refine ⟨hq, hvv, ?_, ?_, ?_⟩
          · intro c hc hcv
            rcases List.mem_cons.mp hc with rfl | hc'
            · exact ha0le
            · exact hl' c hc' hcv
          · intro c cv hc
            obtain ⟨h1, h2⟩ := Prod.mk.injEq .. ▸ (Option.some_injective _ hc)
            subst h1
            have hblt : qval trans gamma V s b < qval trans gamma V s a0 := by
              rw [← hbq]; exact hlt
            exact ⟨le_of_lt (lt_of_lt_of_le hblt ha0le.1),
              fun he => absurd he (ne_of_lt (lt_of_lt_of_le hblt ha0le.1))⟩
          · rcases hmem with h | h
            · exact Or.inl (List.mem_cons_of_mem _ h)
            · obtain ⟨h1, _⟩ := Prod.mk.injEq .. ▸ (Option.some_injective _ h)
              exact Or.inl (h1 ▸ List.mem_cons_self a0 l')
        · have hstep : greedyStep trans gamma V s acc a0 = some (b, bv) := by
            simp [greedyStep, hv0, hacceq, hlt]
          rw [hstep] at hfold
          have hacc' : ∀ c cv, (some (b, bv) : Option (ℕ × ℚ)) = some (c, cv) →
              cv = qval trans gamma V s c ∧ trans s c ≠ [] ∧ ∀ d ∈ l', c < d := by
            intro c cv hc
            obtain ⟨h1, h2⟩ := Prod.mk.injEq .. ▸ (Option.some_injective _ hc)
            exact ⟨by rw [← h1, ← h2, hbq], h1 ▸ hbv,
              fun d hd => h1 ▸ hbl d (List.mem_cons_of_mem _ hd)⟩
          obtain ⟨hq, hvv, hl', haccle, hmem⟩ := ih _ hacc' hsort' a av hfold
          have hble := haccle b bv rfl
          refine ⟨hq, hvv, ?_, ?_, ?_⟩
          · intro c hc hcv
            rcases List.mem_cons.mp hc with rfl | hc'
            · have hq0b : qval trans gamma V s c ≤ bv := not_lt.mp hlt
              refine ⟨le_trans hq0b (hbq ▸ hble.1), fun he => ?_⟩
              have hbv_av : qval trans gamma V s b ≤ av := hble.1
              have : bv = av := le_antisymm (hbq ▸ hbv_av) (he ▸ hq0b)
              have hab : a ≤ b := hble.2 (by rw [← hbq, this])
              exact le_trans hab (le_of_lt (hbl c (List.mem_cons_self c l')))
            · exact hl' c hc' hcv
          · intro c cv hc
            obtain ⟨h1, h2⟩ := Prod.mk.injEq .. ▸ (Option.some_injective _ hc)
            subst h1; subst h2
            exact hble
          · rcases hmem with h | h
            · exact Or.inl (List.mem_cons_of_mem _ h)
            · exact Or.inr h

/-- The matrix the code builds for the one-state self-loop example: the single
entry is `1 − 1 = 0` (no discounting), a singular system. -/
theorem ex1_matrix : evalMatrix ex1trans ex1term (fun _ => 0) = !![0] := by
  ext i j
  fin_cases i <;> fin_cases j <;>
    simp [evalMatrix, subtractProbs, eyeRow, ex1trans, ex1term, Function.update]

/-- On the one-state self-loop example the exact evaluator signals a singular
system (`np.linalg.LinAlgError`). -/
theorem ex1_singular : policy_evaluation_exact ex1trans ex1term (fun _ => 0) = none := by
  rw [policy_evaluation_exact, ex1_matrix, linSolve,
    if_pos (by simp [Matrix.det_fin_one])]

/-- The matrix the code builds for the two-state example. -/
theorem ex2_matrix : evalMatrix ex2trans ex2term (fun _ => 0) = !![1, -1; 0, 1] := by
  ext i j
  fin_cases i <;> fin_cases j <;>
    simp [evalMatrix, subtractProbs, eyeRow, ex2trans, ex2term, Function.update]

/-- The exact evaluator's value for the two-state example: `V = (−1, 0)` —
the discount 1/2 and the reward −5 play no part. -/
theorem ex2_solve : policy_evaluation_exact ex2trans ex2term (fun _ => 0) = some ![-1, 0] := by
  rw [policy_evaluation_exact, ex2_matrix, linSolve,
    if_neg (by simp [Matrix.det_fin_two])]
  congr 1
  funext i
  fin_cases i <;>
    simp [cramerVec, evalVec, ex2term, Matrix.updateColumn, Matrix.det_fin_two,
      Function.update]

/-- The improvement pass leaves the all-zero policy unchanged on the two-state
example (state 0 has a single action). -/
theorem ex2_improve : improve 1 ex2trans ex2term (1/2) ![-1, 0] (fun _ => 0) = fun _ => 0 := by
  funext s
  fin_cases s <;>
    simp [improve, greedyAction, greedyStep, ex2term, ex2trans, List.range_succ, qval]

/-- Full run of Howard's policy iteration on the two-state example: it stops
immediately with `V = (−1, 0)`. -/
theorem ex2_howard :
    Howard_policy_iteration_exact 1 ex2trans ex2term (1/2) (fun _ => 0) 5 (fun _ => 0)
      = some (![-1, 0], fun _ => 0) := by
  rw [Howard_policy_iteration_exact, ex2_solve]
  dsimp only
  rw [if_pos ex2_improve]

/-! ## Claim theorems -/

/-- C1: the claim states that `policy_evaluation_exact` builds the system
`(I − P_π·γ) V = R_π` with non-terminal rows `V[s] − γ·Σ p·V[s'] = −1`.  The
code builds no such system: its row subtracts the raw probabilities without
the discount factor (the function does not even receive γ).  On the one-state
self-loop MDP with γ = 1/2 the code's diagonal entry is `1 − 1 = 0` while the
claimed row would carry `1 − (1/2)·1 = 1/2`; hence the built matrix differs
from the claimed one. -/
theorem C1_exact_evaluator_ignores_gamma :
    evalMatrix ex1trans ex1term (fun _ => 0) 0 0 = 0 ∧
    claimedMatrix ex1trans ex1term (1/2) (fun _ => 0) 0 0 = 1/2 ∧
    evalMatrix ex1trans ex1term (fun _ => 0) ≠ claimedMatrix ex1trans ex1term (1/2) (fun _ => 0) := by
  have h0 : evalMatrix ex1trans ex1term (fun _ => 0) 0 0 = 0 := by rw [ex1_matrix]; rfl
  have h1 : claimedMatrix ex1trans ex1term (1/2) (fun _ => 0) 0 0 = 1/2 := by
    simp [claimedMatrix, probTo, ex1trans, ex1term]
    norm_num
  refine ⟨h0, h1, fun h => ?_⟩
  rw [h, h1] at h0
  norm_num at h0

/-- C4: whenever the exact evaluator signals a singular system
(`np.linalg.LinAlgError`, modelled as `none`), Howard's policy iteration
immediately returns the result of one full LP solve — a single-shot
delegation, not a per-state retry, and a successful (`some`) result, so the
singularity is never surfaced to the user as an error. -/
theorem C4_singular_delegates_to_lp {S : ℕ} (A : ℕ) (trans : Trans S)
    (terminal : Finset (Fin S)) (gamma : ℚ) (lpV : Fin S → ℚ) (fuel : ℕ)
    (policy : Fin S → ℕ)
    (h : policy_evaluation_exact trans terminal policy = none) :
    Howard_policy_iteration_exact A trans terminal gamma lpV (fuel + 1) policy
      = some (linear_programming A trans terminal gamma lpV) := by
  rw [Howard_policy_iteration_exact, h]

/-- Witness for C4: on the one-state self-loop MDP the system is singular and
Howard's policy iteration returns exactly the LP result. -/
theorem C4_witness :
    policy_evaluation_exact ex1trans ex1term (fun _ => 0) = none ∧
    Howard_policy_iteration_exact 1 ex1trans ex1term (1/2) (fun _ => 0) 1 (fun _ => 0)
      = some (linear_programming 1 ex1trans ex1term (1/2) (fun _ => 0)) :=
  ⟨ex1_singular,
   C4_singular_delegates_to_lp 1 ex1trans ex1term (1/2) (fun _ => 0) 0 (fun _ => 0) ex1_singular⟩

/-- C2: the claim states that Howard's policy iteration and the LP solver
return value functions agreeing within 1e-6 at every state.  On the two-state
MDP `ex2` (reward −5 into the terminal state, γ = 1/2) Howard's policy
iteration returns `V[0] = −1` (its exact evaluator ignores both the discount
and the recorded reward), while the value reported by the LP solver — which
returns the backend's optimal solution unchanged — is `V[0] = −5`.  The two
differ by 4, far beyond the 1e-6 tolerance. -/
theorem C2_hpi_and_lp_disagree :
    (Howard_policy_iteration_exact 1 ex2trans ex2term (1/2) (fun _ => 0) 5 (fun _ => 0)
       = some (![-1, 0], fun _ => 0)) ∧
    (∀ W : Fin 2 → ℚ, lpOptimal 1 ex2trans ex2term (1/2) W →
       (linear_programming 1 ex2trans ex2term (1/2) W).1 0 = -5) ∧
    ¬ |(-1 : ℚ) - (-5)| ≤ 1 / 1000000 := by
  refine ⟨ex2_howard, fun W hW => ?_, by norm_num [abs_of_nonneg]⟩
  obtain ⟨⟨hterm, hcons⟩, hopt⟩ := hW
  have hW1 : W 1 = 0 := hterm 1 (by decide)
  have hW0 : qval ex2trans (1/2) W 0 0 ≤ W 0 := by
    refine hcons 0 (by decide) 0 (by norm_num) ?_
    simp [ex2trans]
  have hq : qval ex2trans (1/2) W 0 0 = -5 + (1/2) * W 1 := by
    simp [qval, ex2trans]
  have hfeas : lpFeasible 1 ex2trans ex2term (1/2) ![-5, 0] := by
    constructor
    · intro s hs
      fin_cases s
      · exact absurd hs (by decide)
      · rfl
    · intro s hs a ha hne
      fin_cases s
      · interval_cases a
        simp [qval, ex2trans]
      · exact absurd (by decide : (1 : Fin 2) ∈ ex2term) hs
  have hsum := hopt ![-5, 0] hfeas
  rw [Fin.sum_univ_two, Fin.sum_univ_two] at hsum
  have : W 0 + W 1 ≤ -5 + 0 := by simpa using hsum
  show W 0 = -5
  rw [hq, hW1] at hW0
  rw [hW1] at this
  linarith

/-- C5: a terminal state's value is 0 whichever algorithm produced it — the
exact evaluator (its row is the identity row with right-hand side 0), the
iterative evaluator (terminal entries are never written), and the LP path
(the equality constraint `V_s = 0` of any feasible backend solution, returned
unchanged) — and the improvement pass never touches a terminal state's
action. -/
theorem C5_terminal_states_report_zero {S : ℕ} (A : ℕ) (trans : Trans S)
    (terminal : Finset (Fin S)) (gamma : ℚ) (s : Fin S) (hs : s ∈ terminal) :
    (∀ policy V, policy_evaluation_exact trans terminal policy = some V → V s = 0) ∧
    (∀ policy fuel V, policy_evaluation trans terminal gamma policy fuel = some V → V s = 0) ∧
    (∀ lpV, lpFeasible A trans terminal gamma lpV →
       (linear_programming A trans terminal gamma lpV).1 s = 0) ∧
    (∀ V policy, improve A trans terminal gamma V policy s = policy s) := by
  refine ⟨fun policy V h => ?_, fun policy fuel V h => ?_, fun lpV hf => hf.1 s hs,
    fun V policy => by simp [improve, hs]⟩
  · have hAV := linSolve_spec _ _ _ h
    have hrow := congrFun hAV s
    rw [Matrix.mulVec] at hrow
    have hmat : (fun j => evalMatrix trans terminal policy s j) = eyeRow s := by
      funext j
      simp [evalMatrix, hs]
    rw [hmat, eyeRow_dotProduct] at hrow
    rw [hrow]
    simp [evalVec, hs]
  · exact evalLoop_terminal_zero trans terminal gamma policy fuel _ V
      (fun _ _ => rfl) h s hs

/-- C6: at every non-terminal state, both the policy-iteration improvement
pass and the LP greedy recovery select their action through the same
first-seen strict-argmax scan `greedyAction`; and whenever that scan returns
an action, it is one with recorded transitions whose value is at least that of
every other recorded action, and any recorded action tying its value has an
index no smaller (strict `>` comparison, first seen wins). -/
theorem C6_first_seen_argmax {S : ℕ} (A : ℕ) (trans : Trans S) (terminal : Finset (Fin S))
    (gamma : ℚ) (V : Fin S → ℚ) (s : Fin S) (hs : s ∉ terminal) :
    (∀ policy, improve A trans terminal gamma V policy s
       = (greedyAction A trans gamma V s).getD (policy s)) ∧
    ((linear_programming A trans terminal gamma V).2 s
       = (greedyAction A trans gamma V s).getD 0) ∧
    (∀ a, greedyAction A trans gamma V s = some a →
       trans s a ≠ [] ∧ a < A ∧
       ∀ b, b < A → trans s b ≠ [] →
         qval trans gamma V s b ≤ qval trans gamma V s a ∧
         (qval trans gamma V s b = qval trans gamma V s a → a ≤ b)) := by
  refine ⟨fun policy => by simp [improve, hs], by simp [linear_programming, hs],
    fun a ha => ?_⟩
  rw [greedyAction] at ha
  obtain ⟨p, hfold, hfst⟩ := Option.map_eq_some'.mp ha
  obtain ⟨a', av⟩ := p
  cases hfst
  obtain ⟨hq, hvalid, hall, -, hmem⟩ :=
    greedy_fold_spec trans gamma V s (List.range A) none (by simp)
      (List.sorted_lt_range A) a' av hfold
  have hmemA : a' ∈ List.range A := by
    rcases hmem with h | h
    · exact h
    · exact absurd h (by simp)
  refine ⟨hvalid, List.mem_range.mp hmemA, fun b hb hbv => ?_⟩
  have hres := hall b (List.mem_range.mpr hb) hbv
  rw [hq] at hres
  exact hres

/-- Witness for C6 on the tied two-action example at its only (non-terminal)
state. -/
theorem C6_witness :
    ((0 : Fin 1) ∉ (∅ : Finset (Fin 1))) ∧
    ((∀ policy, improve 2 ex3trans ∅ (1/2) (fun _ => 0) policy 0
        = (greedyAction 2 ex3trans (1/2) (fun _ => 0) 0).getD (policy 0)) ∧
     ((linear_programming 2 ex3trans ∅ (1/2) (fun _ => 0)).2 0
        = (greedyAction 2 ex3trans (1/2) (fun _ => 0) 0).getD 0) ∧
     (∀ a, greedyAction 2 ex3trans (1/2) (fun _ => 0) 0 = some a →
        ex3trans 0 a ≠ [] ∧ a < 2 ∧
        ∀ b, b < 2 → ex3trans 0 b ≠ [] →
          qval ex3trans (1/2) (fun _ => 0) 0 b ≤ qval ex3trans (1/2) (fun _ => 0) 0 a ∧
          (qval ex3trans (1/2) (fun _ => 0) 0 b = qval ex3trans (1/2) (fun _ => 0) 0 a →
            a ≤ b))) :=
  ⟨by decide, C6_first_seen_argmax 2 ex3trans ∅ (1/2) (fun _ => 0) 0 (by decide)⟩

/-- Every iterate of the evaluator's sweep is zero at terminal states. -/
theorem Vseq_terminal_zero {S : ℕ} (trans : Trans S) (terminal : Finset (Fin S))
    (gamma : ℚ) (policy : Fin S → ℕ) :
    ∀ n, ∀ s ∈ terminal, Vseq trans terminal gamma policy n s = 0 := by
  intro n s hs
  cases n with
  | zero => rfl
  | succ m => simp [Vseq, iterStep, hs]

/-- Running the `while` loop of `policy_evaluation` from the `n`-th iterate
lands on the first iterate (at or after `n`) whose sweep moves it by less than
the tolerance. -/
theorem evalLoop_run_spec {S : ℕ} (trans : Trans S) (terminal : Finset (Fin S))
    (gamma : ℚ) (policy : Fin S → ℕ) :
    ∀ fuel n V,
      evalLoop trans terminal gamma policy fuel (Vseq trans terminal gamma policy n) = some V →
      (∀ k < n, ¬ supDist (Vseq trans terminal gamma policy (k + 1))
                    (Vseq trans terminal gamma policy k) < iterTol) →
      ∃ m, V = Vseq trans terminal gamma policy m ∧
        supDist (Vseq trans terminal gamma policy (m + 1))
          (Vseq trans terminal gamma policy m) < iterTol ∧
        ∀ k < m, ¬ supDist (Vseq trans terminal gamma policy (k + 1))
                      (Vseq trans terminal gamma policy k) < iterTol := by
  intro fuel
  induction fuel with
  | zero => intro n V h; exact absurd h (by simp [evalLoop])
  | succ f ih =>
    intro n V h hk
    rw [evalLoop] at h
    split at h
    · next hstop =>
      exact ⟨n, (Option.some_injective _ h).symm, hstop, hk⟩
    · next hgo =>
      refine ih (n + 1) V h (fun k hklt => ?_)
      rcases Nat.lt_succ_iff_lt_or_eq.mp hklt with hlt | rfl
      · exact hk k hlt
      · exact hgo

/-- C7: whenever `policy_evaluation` returns, its result is an iterate of the
sweep sequence started from the all-zero vector — whose terminal entries stay
0 throughout and whose successor is a full Bellman backup sweep over the
policy's transitions — and it is exactly the first iterate whose update has
sup-norm below 1e-8 (the loop returns the pre-update vector at that point). -/
theorem C7_iterative_evaluator_spec {S : ℕ} (trans : Trans S) (terminal : Finset (Fin S))
    (gamma : ℚ) (policy : Fin S → ℕ) (fuel : ℕ) (V : Fin S → ℚ)
    (h : policy_evaluation trans terminal gamma policy fuel = some V) :
    (Vseq trans terminal gamma policy 0 = fun _ => 0) ∧
    (∀ n, Vseq trans terminal gamma policy (n + 1)
        = iterStep trans terminal gamma policy (Vseq trans terminal gamma policy n)) ∧
    (∀ n, ∀ s ∈ terminal, Vseq trans terminal gamma policy n s = 0) ∧
    (∀ s ∈ terminal, V s = 0) ∧
    ∃ m, V = Vseq trans terminal gamma policy m ∧
      supDist (Vseq trans terminal gamma policy (m + 1))
        (Vseq trans terminal gamma policy m) < iterTol ∧
      ∀ k < m, ¬ supDist (Vseq trans terminal gamma policy (k + 1))
                    (Vseq trans terminal gamma policy k) < iterTol := by
  refine ⟨rfl, fun n => rfl, Vseq_terminal_zero trans terminal gamma policy,
    fun s hs => evalLoop_terminal_zero trans terminal gamma policy fuel _ V
      (fun _ _ => rfl) h s hs, ?_⟩
  exact evalLoop_run_spec trans terminal gamma policy fuel 0 V h (by simp)

/-- Witness for C7: on the all-terminal one-state MDP the evaluator stops on
the first check and all components of the specification hold. -/
theorem C7_witness :
    (policy_evaluation ex1trans ex4term (1/2) (fun _ => 0) 1 = some (fun _ => 0)) ∧
    ((Vseq ex1trans ex4term (1/2) (fun _ => 0) 0 = fun _ => 0) ∧
     (∀ n, Vseq ex1trans ex4term (1/2) (fun _ => 0) (n + 1)
         = iterStep ex1trans ex4term (1/2) (fun _ => 0)
             (Vseq ex1trans ex4term (1/2) (fun _ => 0) n)) ∧
     (∀ n, ∀ s ∈ ex4term, Vseq ex1trans ex4term (1/2) (fun _ => 0) n s = 0) ∧
     (∀ s ∈ ex4term, (fun _ : Fin 1 => (0 : ℚ)) s = 0) ∧
     ∃ m, (fun _ : Fin 1 => (0 : ℚ)) = Vseq ex1trans ex4term (1/2) (fun _ => 0) m ∧
       supDist (Vseq ex1trans ex4term (1/2) (fun _ => 0) (m + 1))
         (Vseq ex1trans ex4term (1/2) (fun _ => 0) m) < iterTol ∧
       ∀ k < m, ¬ supDist (Vseq ex1trans ex4term (1/2) (fun _ => 0) (k + 1))
                     (Vseq ex1trans ex4term (1/2) (fun _ => 0) k) < iterTol) :=
  have h : policy_evaluation ex1trans ex4term (1/2) (fun _ => 0) 1 = some (fun _ => 0) := by
    rw [policy_evaluation, evalLoop]
    rw [if_pos (by norm_num [supDist, iterStep, ex4term, iterTol, List.finRange_succ,
      List.finRange_zero])]
  ⟨h, C7_iterative_evaluator_spec ex1trans ex4term (1/2) (fun _ => 0) 1 (fun _ => 0) h⟩

/-- C8: the driver's selection — a supplied (truthy) policy file always selects
the iterative evaluator; otherwise an episodic MDP kind always selects the LP
solver whatever the `--algorithm` flag resolves to; otherwise the flag decides,
`hpi` (also the argparse default when the flag is absent) selecting Howard's
policy iteration and `lp` selecting the LP solver. -/
theorem C8_driver_mode_selection (policyArg mdptype algArg : Option String) :
    (policyGiven policyArg = true →
       chooseMode policyArg mdptype (resolveAlgorithm algArg) = .evaluate) ∧
    (policyGiven policyArg = false → mdptype = some "episodic" →
       chooseMode policyArg mdptype (resolveAlgorithm algArg) = .lp) ∧
    (policyGiven policyArg = false → mdptype ≠ some "episodic" →
       (resolveAlgorithm algArg = "hpi" →
          chooseMode policyArg mdptype (resolveAlgorithm algArg) = .hpi) ∧
       (resolveAlgorithm algArg = "lp" →
          chooseMode policyArg mdptype (resolveAlgorithm algArg) = .lp) ∧
       (algArg = none →
          chooseMode policyArg mdptype (resolveAlgorithm algArg) = .hpi)) := by
  refine ⟨fun hp => by simp [chooseMode, hp], fun hp he => by simp [chooseMode, hp, he],
    fun hp he => ⟨fun ha => by simp [chooseMode, hp, he, ha],
      fun ha => by simp [chooseMode, hp, he, ha], fun ha => ?_⟩⟩
  subst ha
  simp [chooseMode, hp, he, resolveAlgorithm]

/-- C9: in every mode the planner prints exactly one line per state `s` in
`[0, S)`, in ascending state order; line `s` is the value `V[s]` rendered with
a `.` followed by exactly eight decimal digits, then a tab, then the policy's
action id for `s`. -/
theorem C9_output_format (S : ℕ) (V : ℕ → ℚ) (policy : ℕ → ℕ) :
    (outputLines S V policy).length = S ∧
    (∀ s, s < S → (outputLines S V policy).get? s
        = some (fmt8 (V s) ++ "\t" ++ toString (policy s))) ∧
    (∀ q : ℚ, ∃ intpart : String,
        fmt8 q = intpart ++ "." ++ fracDigits8 ((round (|q| * 100000000) : ℤ).toNat) ∧
        (fracDigits8 ((round (|q| * 100000000) : ℤ).toNat)).length = 8) := by
  refine ⟨by simp [outputLines], fun s hs => ?_, fun q => ?_⟩
  · rw [outputLines, List.get?_map, List.get?_range hs]
    rfl
  · refine ⟨(if q < 0 then "-" else "")
      ++ toString ((round (|q| * 100000000) : ℤ).toNat / 100000000), rfl, ?_⟩
    simp [fracDigits8, String.length]

/-- C3: the claim requires the MDP Loader to surface a fatal configuration
error whenever `numStates`, `numActions` or `discount` is absent.  The code
does not: on an input with none of the keywords present (the empty file),
`parse_mdp` returns successfully with every field silently defaulted —
`S = 0`, `A = 0`, `mdptype = None`, `gamma = None`. -/
theorem C3_parser_silently_defaults :
    parse_mdp [] = some initMDPFile ∧
    initMDPFile.numStates = 0 ∧ initMDPFile.numActions = 0 ∧
    initMDPFile.mdptype = none ∧ initMDPFile.gamma = none :=
  ⟨rfl, rfl, rfl, rfl, rfl⟩

/-- Witness for C5 on the two-state example: state 1 is terminal and all four
component statements hold there. -/
theorem C5_witness :
    ((1 : Fin 2) ∈ ex2term) ∧
    ((∀ policy V, policy_evaluation_exact ex2trans ex2term policy = some V → V 1 = 0) ∧
     (∀ policy fuel V, policy_evaluation ex2trans ex2term (1/2) policy fuel = some V → V 1 = 0) ∧
     (∀ lpV, lpFeasible 1 ex2trans ex2term (1/2) lpV →
        (linear_programming 1 ex2trans ex2term (1/2) lpV).1 1 = 0) ∧
     (∀ V policy, improve 1 ex2trans ex2term (1/2) V policy 1 = policy 1)) :=
  ⟨by decide, C5_terminal_states_report_zero 1 ex2trans ex2term (1/2) 1 (by decide)⟩

end Planner

namespace Decoder

/-- A successful row scan lands on a token the predicate accepts; if the
predicate rejects the wall symbol, that cell is listed as free. -/
theorem findTokenRow_mem_freeCells (p : String → Option ℕ) (hW : p "W" = none) (i : ℕ) :
    ∀ ts j j' o, findTokenRow p ts j = some (j', o) → (i, j') ∈ freeCellsRow i ts j := by
  intro ts
  induction ts with
  | nil => intro j j' o h; exact absurd h (by simp [findTokenRow])
  | cons t ts ih =>
    intro j j' o h
    rw [findTokenRow] at h
    cases hp : p t with
    | some o0 =>
      rw [hp] at h
      obtain ⟨h1, h2⟩ := Prod.mk.injEq .. ▸ (Option.some_injective _ h)
      have htW : t ≠ "W" := fun he => by rw [he, hW] at hp; exact Option.noConfusion hp
      rw [freeCellsRow, if_neg htW]
      exact h1 ▸ List.mem_cons_self _ _
    | none =>
      rw [hp] at h
      have hrec := ih (j + 1) j' o h
      rw [freeCellsRow]
      split
      · exact hrec
      · exact List.mem_cons_of_mem _ hrec

/-- A successful grid scan lands on a free cell (row-major). -/
theorem findTokenGrid_mem_freeCells (p : String → Option ℕ) (hW : p "W" = none) :
    ∀ grid i0 i j o, findTokenGrid p grid i0 = some (i, j, o) →
      (i, j) ∈ freeCellsGrid grid i0 := by
  intro grid
  induction grid with
  | nil => intro i0 i j o h; exact absurd h (by simp [findTokenGrid])
  | cons row rest ih =>
    intro i0 i j o h
    rw [findTokenGrid] at h
    cases hr : findTokenRow p row 0 with
    | some jo =>
      obtain ⟨j0, o0⟩ := jo
      rw [hr] at h
      have h' := Option.some_injective _ h
      obtain ⟨h1, h23⟩ := Prod.mk.injEq .. ▸ h'
      obtain ⟨h2, h3⟩ := Prod.mk.injEq .. ▸ h23
      rw [freeCellsGrid]
      refine List.mem_append_left _ ?_
      have := findTokenRow_mem_freeCells p hW i0 row 0 j0 o0 hr
      rw [← h1, ← h2]
      exact this
    | none =>
      rw [hr] at h
      rw [freeCellsGrid]
      exact List.mem_append_right _ (ih (i0 + 1) i j o h)

/-- The agent reported by `find_agent` stands on a free (non-wall) cell. -/
theorem find_agent_mem_freeCells (grid : Grid) (i j o : ℕ)
    (h : find_agent grid = some (i, j, o)) : (i, j) ∈ freeCellsGrid grid 0 := by
  rw [find_agent] at h
  cases h1 : findTokenGrid arrowOrient grid 0 with
  | some r =>
    rw [h1] at h
    exact findTokenGrid_mem_freeCells arrowOrient (by rfl) grid 0 i j o (h1.trans h)
  | none =>
    rw [h1] at h
    exact findTokenGrid_mem_freeCells startOrient (by rfl) grid 0 i j o h

/-- A listed cell always has a first-occurrence index. -/
theorem idxFrom_isSome (x : ℕ × ℕ) :
    ∀ l k, x ∈ l → ∃ n, idxFrom x l k = some n := by
  intro l
  induction l with
  | nil => intro k h; exact absurd h (List.not_mem_nil x)
  | cons y ys ih =>
    intro k h
    rw [idxFrom]
    by_cases he : y = x
    · rw [if_pos he]; exact ⟨k, rfl⟩
    · rw [if_neg he]
      rcases List.mem_cons.mp h with rfl | h'
      · exact absurd rfl he
      · exact ih (k + 1) h'

/-- When every value-policy line is well formed (at least two fields), the
parsed policy column has exactly one entry per line. -/
theorem parseVP_length :
    ∀ (vpLines : List (List String)) (pl : List ℤ),
      parseVP vpLines = some pl → (∀ l ∈ vpLines, 2 ≤ l.length) →
      pl.length = vpLines.length := by
  intro vpLines
  induction vpLines with
  | nil =>
    intro pl h _
    rw [parseVP] at h
    rw [← Option.some_injective _ h]
    rfl
  | cons parts rest ih =>
    intro pl h hwf
    rw [parseVP] at h
    rw [dif_pos (hwf parts (List.mem_cons_self _ _))] at h
    cases hi : Py.pyInt (parts.get ⟨1, hwf parts (List.mem_cons_self _ _)⟩) with
    | none => rw [hi] at h; exact absurd h (by simp)
    | some v =>
      rw [hi] at h
      cases hr : parseVP rest with
      | none => rw [hr] at h; exact absurd h (by simp)
      | some l' =>
        rw [hr] at h
        have hpl : pl = v :: l' := by
          have := Option.some_injective _ h.symm
          simpa using this
        subst hpl
        simp [ih l' hr (fun l hl => hwf l (List.mem_cons_of_mem _ hl))]

/-- C10: the decoder's per-test-case action lookup never fails, and emits the
fallback action `"0"` in both edge cases — when no agent marker (arrow or
`'s'`) is present in the grid, and when the reconstructed state id is not
less than the number of (well-formed) lines of the value-policy file. -/
theorem C10_decoder_fallbacks (vpLines : List (List String)) (pl : List ℤ) (grid : Grid)
    (hp : parseVP vpLines = some pl) (hwf : ∀ l ∈ vpLines, 2 ≤ l.length) :
    pl.length = vpLines.length ∧
    (find_agent grid = none → decodeCase pl grid = some "0") ∧
    (∀ i j o, find_agent grid = some (i, j, o) →
       ∃ ci, freeCellIndex grid i j = some ci ∧
         (vpLines.length ≤ (ci * 4 + o) * 2 + (if has_key_in_grid grid then 0 else 1) →
            decodeCase pl grid = some "0")) ∧
    (∃ out, decodeCase pl grid = some out) := by
  have hlen := parseVP_length vpLines pl hp hwf
  have hmain : ∀ i j o, find_agent grid = some (i, j, o) →
      ∃ ci, freeCellIndex grid i j = some ci ∧
        (vpLines.length ≤ (ci * 4 + o) * 2 + (if has_key_in_grid grid then 0 else 1) →
           decodeCase pl grid = some "0") := by
    intro i j o hfa
    obtain ⟨ci, hci⟩ := idxFrom_isSome (i, j) (freeCellsGrid grid 0) 0
      (find_agent_mem_freeCells grid i j o hfa)
    refine ⟨ci, hci, fun hge => ?_⟩
    rw [decodeCase, hfa]
    dsimp only
    have hci' : freeCellIndex grid i j = some ci := hci
    rw [hci']
    dsimp only
    rw [dif_neg (by omega : ¬ (ci * 4 + o) * 2
      + (if has_key_in_grid grid then 0 else 1) < pl.length)]
    rfl
  refine ⟨hlen, fun hfa => by rw [decodeCase, hfa], hmain, ?_⟩
  cases hfa : find_agent grid with
  | none => exact ⟨"0", by rw [decodeCase, hfa]⟩
  | some r =>
    obtain ⟨i, j, o⟩ := r
    obtain ⟨ci, hci, -⟩ := hmain i j o hfa
    rw [decodeCase, hfa]
    dsimp only
    have hci' : freeCellIndex grid i j = some ci := hci
    rw [hci']
    dsimp only
    by_cases hlt : (ci * 4 + o) * 2 + (if has_key_in_grid grid then 0 else 1) < pl.length
    · rw [dif_pos hlt]
      exact ⟨_, rfl⟩
    · rw [dif_neg hlt]
      exact ⟨_, rfl⟩

/-- Witness for C10: a one-line value-policy file and a grid consisting of a
single wall cell (so no agent marker is present). -/
theorem C10_witness :
    (parseVP [["0.00000000", "1"]] = some [1]) ∧
    (∀ l ∈ [["0.00000000", "1"]], 2 ≤ l.length) ∧
    (([(1 : ℤ)].length = [["0.00000000", "1"]].length) ∧
     (find_agent [["W"]] = none → decodeCase [1] [["W"]] = some "0") ∧
     (∀ i j o, find_agent [["W"]] = some (i, j, o) →
        ∃ ci, freeCellIndex [["W"]] i j = some ci ∧
          ([["0.00000000", "1"]].length ≤ (ci * 4 + o) * 2
             + (if has_key_in_grid [["W"]] then 0 else 1) →
             decodeCase [1] [["W"]] = some "0")) ∧
     (∃ out, decodeCase [1] [["W"]] = some out)) :=
  have hp : parseVP [["0.00000000", "1"]] = some [1] := by rfl
  have hwf : ∀ l ∈ [["0.00000000", "1"]], 2 ≤ l.length := by
    intro l hl
    simp only [List.mem_singleton] at hl
    rw [hl]
    exact le_refl 2
  ⟨hp, hwf, C10_decoder_fallbacks [["0.00000000", "1"]] [1] [["W"]] hp hwf⟩

end Decoder
